import Mathlib

/-!
Shallow embedding of the `latestmap` crate (src/lib.rs): a container pairing
a `HashMap<Key, Value>` value store with a `BTreeSet<Key>` order index and
answering floor ("latest as of this key") queries.

Modelling choices:
* `HashMap<Key, Value>` is an association list with unique keys.
  `hmGet`, `hmInsert`, `hmRemove` model `HashMap::get` / `insert` / `remove`.
* `BTreeSet<Key>` is a strictly sorted `List Key`; `btreeInsert` models
  `BTreeSet::insert`, `List.erase` models `BTreeSet::remove`, list membership
  models `BTreeSet::contains`, and `self.data_index.iter().collect::<Vec<_>>()`
  is the sorted list itself.
* `slice::binary_search` on the collected key vector is modelled by its
  documented contract (`binarySearch` below).
-/

variable {Key : Type} {Value : Type} [LinearOrder Key]

/-- Model of `HashMap::get`: the value bound to `k`, if any. -/
def hmGet (k : Key) : List (Key × Value) → Option Value
  | [] => none
  | (k', v) :: rest => if k' = k then some v else hmGet k rest

/-- Model of `HashMap::insert`: overwrite the binding of `k` or append one. -/
def hmInsert (k : Key) (v : Value) : List (Key × Value) → List (Key × Value)
  | [] => [(k, v)]
  | (k', v') :: rest =>
    if k' = k then (k, v) :: rest else (k', v') :: hmInsert k v rest

/-- Model of `HashMap::remove`: the removed value (if any) and the remaining map. -/
def hmRemove (k : Key) : List (Key × Value) → Option Value × List (Key × Value)
  | [] => (none, [])
  | (k', v) :: rest =>
    if k' = k then (some v, rest)
    else
      let r := hmRemove k rest
      (r.1, (k', v) :: r.2)

/-- Model of `BTreeSet::insert` on a strictly sorted list: ordered, deduplicating. -/
def btreeInsert (k : Key) : List Key → List Key
  | [] => [k]
  | x :: rest =>
    if k < x then k :: x :: rest
    else if k = x then x :: rest
    else x :: btreeInsert k rest

/-- Model of `slice::binary_search` via its documented contract on a sorted,
duplicate-free slice: `Ok(i)` with the position of `key` when `key` is present,
otherwise `Err(i)` where `i` is the insertion point, i.e. the number of
elements below `key`. `Sum.inl` stands for `Ok`, `Sum.inr` for `Err`. -/
def binarySearch (l : List Key) (key : Key) : Sum Nat Nat :=
  if key ∈ l then Sum.inl (l.indexOf key)
  else Sum.inr (l.countP (fun x => decide (x < key)))

/-- The target-key resolution shared (textually duplicated in the Rust source)
by `get_latest` and `pop_latest`: exact hit if `key` is in the index, else the
`binary_search` floor; `none` models the early `return None` when
`gt_index == 0`, and `List.get?` models the slice access
`sorted_keys[gt_index - 1]` (whose in-bounds-ness is proved below). -/
def resolveTarget (idx : List Key) (key : Key) : Option Key :=
  if key ∈ idx then some key
  else
    match binarySearch idx key with
    | Sum.inl _ => some key
    | Sum.inr gt_index =>
      if gt_index = 0 then none
      else idx.get? (gt_index - 1)

/-- `LatestMap<Key, Value>`: the `data` hash map and the `data_index` B-tree set. -/
structure LatestMap (Key Value : Type) where
  data : List (Key × Value)
  data_index : List Key

namespace LatestMap

/-- `Default::default()`: both substructures empty. -/
def default : LatestMap Key Value := ⟨[], []⟩

/-- `LatestMap::insert`: insert into the map and into the index. -/
def insert (m : LatestMap Key Value) (key : Key) (value : Value) :
    LatestMap Key Value :=
  ⟨hmInsert key value m.data, btreeInsert key m.data_index⟩

/-- `LatestMap::get_latest`: resolve the floor target key, then read the map. -/
def get_latest (m : LatestMap Key Value) (key : Key) : Option Value :=
  match resolveTarget m.data_index key with
  | none => none
  | some target_key => hmGet target_key m.data

/-- `LatestMap::get_last_with_key`: last of the sorted keys, with its value. -/
def get_last_with_key (m : LatestMap Key Value) : Option (Key × Value) :=
  match m.data_index.getLast? with
  | none => none
  | some key => (hmGet key m.data).map (fun v => (key, v))

/-- `LatestMap::get_mut`: exact map lookup; models whether a mutable handle is
returned, and the value it points at. -/
def get_mut (m : LatestMap Key Value) (key : Key) : Option Value :=
  hmGet key m.data

/-- `LatestMap::contains_key`: exact index membership. -/
def contains_key (m : LatestMap Key Value) (key : Key) : Bool :=
  decide (key ∈ m.data_index)

/-- `LatestMap::pop_latest`: resolve the floor target key, remove it from both
substructures, return the removed pair together with the new state. -/
def pop_latest (m : LatestMap Key Value) (key : Key) :
    Option (Key × Value) × LatestMap Key Value :=
  match resolveTarget m.data_index key with
  | none => (none, m)
  | some target_key =>
    let idx := m.data_index.erase target_key
    let rm := hmRemove target_key m.data
    (rm.1.map (fun value => (target_key, value)), ⟨rm.2, idx⟩)

end LatestMap

/-- The public mutating operations, used to describe reachable states:
`ins` is `insert`, `pop` is `pop_latest` (keeping the new state), and
`mutWrite` is a write through a handle obtained from `get_mut` (a no-op when
`get_mut` returns `None`, since there is no handle to write through). -/
inductive Op (Key Value : Type) where
  | ins (k : Key) (v : Value)
  | pop (k : Key)
  | mutWrite (k : Key) (v : Value)

/-- Apply one public mutating operation. -/
def applyOp (m : LatestMap Key Value) : Op Key Value → LatestMap Key Value
  | .ins k v => m.insert k v
  | .pop k => (m.pop_latest k).2
  | .mutWrite k v =>
    match m.get_mut k with
    | none => m
    | some _ => ⟨hmInsert k v m.data, m.data_index⟩

/-- Run a sequence of public mutating operations from the empty container. -/
def runOps (ops : List (Op Key Value)) : LatestMap Key Value :=
  ops.foldl applyOp LatestMap.default

/-- The keys of the value store. -/
def keys (m : List (Key × Value)) : List Key := m.map Prod.fst

/-- Well-formedness of a container state: the index is strictly sorted, the
store's keys are duplicate-free, and both hold the same key set (invariant I1). -/
structure WF (m : LatestMap Key Value) : Prop where
  sorted : m.data_index.Sorted (· < ·)
  nodupKeys : (keys m.data).Nodup
  mem_iff : ∀ k : Key, k ∈ m.data_index ↔ k ∈ keys m.data

/-- Floor-lookup specification for `get_latest` at query `q` (the spec's
sentence: the value of the greatest stored key at or below `q`, absent when
`q` is below every stored key). -/
def floorSpec (m : LatestMap Key Value) (q : Key) : Prop :=
  (m.get_latest q = none ↔ ∀ k ∈ m.data_index, q < k) ∧
  (∀ v : Value, m.get_latest q = some v →
    ∃ r, r ∈ m.data_index ∧ r ≤ q ∧ hmGet r m.data = some v ∧
      ∀ k ∈ m.data_index, k ≤ q → k ≤ r)

/-- The concrete scenario of the crate's test suite: inserting
(1,2), (10,20), (20,40), (50,100) in order. -/
def exMap : LatestMap Nat Nat :=
  runOps [Op.ins 1 2, Op.ins 10 20, Op.ins 20 40, Op.ins 50 100]

/-! ### Lemmas about the `HashMap` model -/

lemma hmGet_hmInsert_self (k : Key) (v : Value) (m : List (Key × Value)) :
    hmGet k (hmInsert k v m) = some v := by
  induction m with
  | nil => simp [hmGet, hmInsert]
  | cons p rest ih =>
    obtain ⟨k', v'⟩ := p
    by_cases h : k' = k
    · subst h; simp [hmGet, hmInsert]
    · simp [hmGet, hmInsert, h, ih]

lemma hmGet_hmInsert_ne (k k' : Key) (v : Value) (m : List (Key × Value))
    (h : k' ≠ k) : hmGet k' (hmInsert k v m) = hmGet k' m := by
  induction m with
  | nil => simp [hmGet, hmInsert, Ne.symm h]
  | cons p rest ih =>
    obtain ⟨ka, va⟩ := p
    by_cases hk : ka = k
    · subst hk
      simp [hmGet, hmInsert, Ne.symm h]
    · simp [hmGet, hmInsert, hk, ih]

lemma mem_keys_hmInsert (k k' : Key) (v : Value) (m : List (Key × Value)) :
    k' ∈ keys (hmInsert k v m) ↔ k' = k ∨ k' ∈ keys m := by
  induction m with
  | nil => simp [keys, hmInsert]
  | cons p rest ih =>
    obtain ⟨ka, va⟩ := p
    by_cases hk : ka = k
    · subst hk
      simp [keys, hmInsert]
    · simp only [keys, hmInsert, hk, if_false, List.map_cons, List.mem_cons] at ih ⊢
      tauto

lemma nodup_keys_hmInsert (k : Key) (v : Value) (m : List (Key × Value))
    (h : (keys m).Nodup) : (keys (hmInsert k v m)).Nodup := by
  induction m with
  | nil => simp [keys, hmInsert]
  | cons p rest ih =>
    obtain ⟨ka, va⟩ := p
    simp only [keys, List.map_cons, List.nodup_cons] at h
    by_cases hk : ka = k
    · subst hk
      simpa [keys, hmInsert, List.nodup_cons] using h
    · have h2 := ih h.2
      simp only [keys, hmInsert, hk, if_false, List.map_cons, List.nodup_cons]
      refine ⟨fun hmem => ?_, h2⟩
      rcases (mem_keys_hmInsert k ka v rest).1 hmem with he | hmem2
      · exact hk he
      · exact h.1 hmem2

lemma hmGet_eq_none_iff (k : Key) (m : List (Key × Value)) :
    hmGet k m = none ↔ k ∉ keys m := by
  induction m with
  | nil => simp [hmGet, keys]
  | cons p rest ih =>
    obtain ⟨ka, va⟩ := p
    by_cases hk : ka = k
    · subst hk; simp [hmGet, keys]
    · have hka : ¬ k = ka := fun e => hk e.symm
      simp only [hmGet, hk, if_false, ih, keys, List.map_cons, List.mem_cons]
      tauto

lemma hmGet_isSome_iff (k : Key) (m : List (Key × Value)) :
    (hmGet k m).isSome ↔ k ∈ keys m := by
  rcases h : hmGet k m with _ | v
  · simp [(hmGet_eq_none_iff k m).1 h]
  · have : ¬ hmGet k m = none := by simp [h]
    rw [hmGet_eq_none_iff] at this
    simpa using this

lemma hmRemove_fst (k : Key) (m : List (Key × Value)) :
    (hmRemove k m).1 = hmGet k m := by
  induction m with
  | nil => simp [hmRemove, hmGet]
  | cons p rest ih =>
    obtain ⟨ka, va⟩ := p
    by_cases hk : ka = k
    · subst hk; simp [hmRemove, hmGet]
    · simp [hmRemove, hmGet, hk, ih]

lemma hmGet_hmRemove_ne (k k' : Key) (m : List (Key × Value)) (h : k' ≠ k) :
    hmGet k' (hmRemove k m).2 = hmGet k' m := by
  induction m with
  | nil => simp [hmRemove]
  | cons p rest ih =>
    obtain ⟨ka, va⟩ := p
    by_cases hk : ka = k
    · subst hk
      simp [hmRemove, hmGet, Ne.symm h]
    · simp [hmRemove, hmGet, hk, ih]

lemma mem_keys_hmRemove (k k' : Key) (m : List (Key × Value))
    (hnd : (keys m).Nodup) :
    k' ∈ keys (hmRemove k m).2 ↔ k' ∈ keys m ∧ k' ≠ k := by
  induction m with
  | nil => simp [hmRemove, keys]
  | cons p rest ih =>
    obtain ⟨ka, va⟩ := p
    simp only [keys, List.map_cons, List.nodup_cons] at hnd
    by_cases hk : ka = k
    · subst hk
      simp only [hmRemove, if_pos rfl, keys, List.map_cons, List.mem_cons]
      constructor
      · intro hmem
        refine ⟨Or.inr hmem, fun he => ?_⟩
        subst he
        exact hnd.1 hmem
      · rintro ⟨ha | hmem, hne⟩
        · exact absurd ha hne
        · exact hmem
    · have ihr := ih hnd.2
      simp only [hmRemove, hk, if_false, keys, List.map_cons, List.mem_cons] at ihr ⊢
      constructor
      · rintro (he | hmem)
        · exact ⟨Or.inl he, fun hek => hk (he ▸ hek)⟩
        · rcases ihr.1 hmem with ⟨h1, h2⟩
          exact ⟨Or.inr h1, h2⟩
      · rintro ⟨he | hmem, hne⟩
        · exact Or.inl he
        · exact Or.inr (ihr.2 ⟨hmem, hne⟩)

lemma nodup_keys_hmRemove (k : Key) (m : List (Key × Value))
    (hnd : (keys m).Nodup) : (keys (hmRemove k m).2).Nodup := by
  induction m with
  | nil => simp [hmRemove, keys]
  | cons p rest ih =>
    obtain ⟨ka, va⟩ := p
    simp only [keys, List.map_cons, List.nodup_cons] at hnd
    by_cases hk : ka = k
    · subst hk
      simpa [hmRemove, keys] using hnd.2
    · have h2 := ih hnd.2
      simp only [hmRemove, hk, if_false, keys, List.map_cons, List.nodup_cons]
      refine ⟨fun hmem => ?_, h2⟩
      exact hnd.1 ((mem_keys_hmRemove k ka rest hnd.2).1 hmem).1

lemma length_hmRemove_mem (k : Key) (m : List (Key × Value)) (h : k ∈ keys m) :
    (hmRemove k m).2.length + 1 = m.length := by
  induction m with
  | nil => simp [keys] at h
  | cons p rest ih =>
    obtain ⟨ka, va⟩ := p
    by_cases hk : ka = k
    · subst hk; simp [hmRemove]
    · simp only [keys, List.map_cons, List.mem_cons] at h
      rcases h with he | hmem
      · exact absurd he.symm hk
      · simp only [hmRemove, hk, if_false, List.length_cons]
        rw [← ih hmem]

/-! ### Lemmas about the `BTreeSet` model -/

lemma mem_btreeInsert (k k' : Key) (l : List Key) :
    k' ∈ btreeInsert k l ↔ k' = k ∨ k' ∈ l := by
  induction l with
  | nil => simp [btreeInsert]
  | cons x rest ih =>
    by_cases h1 : k < x
    · simp [btreeInsert, h1]
    · by_cases h2 : k = x
      · subst h2
        simp [btreeInsert, h1]
      · simp only [btreeInsert, h1, if_false, h2, List.mem_cons, ih]
        tauto

lemma sorted_btreeInsert (k : Key) (l : List Key) (hs : l.Sorted (· < ·)) :
    (btreeInsert k l).Sorted (· < ·) := by
  induction l with
  | nil => simp [btreeInsert]
  | cons x rest ih =>
    rw [List.sorted_cons] at hs
    by_cases h1 : k < x
    · simp only [btreeInsert, h1, if_true, List.sorted_cons]
      refine ⟨fun b hb => ?_, hs.1, hs.2⟩
      rcases List.mem_cons.1 hb with he | hmem
      · exact he ▸ h1
      · exact h1.trans (hs.1 b hmem)
    · by_cases h2 : k = x
      · subst h2
        have he : btreeInsert k (k :: rest) = k :: rest := by
          simp [btreeInsert, h1]
        rw [he, List.sorted_cons]
        exact hs
      · simp only [btreeInsert, h1, if_false, h2, List.sorted_cons]
        have hx : x < k := lt_of_le_of_ne (not_lt.1 h1) (fun e => h2 e.symm)
        refine ⟨fun b hb => ?_, ih hs.2⟩
        rcases (mem_btreeInsert k b rest).1 hb with he | hmem
        · exact he ▸ hx
        · exact hs.1 b hmem

lemma length_btreeInsert_of_mem (k : Key) (l : List Key)
    (hs : l.Sorted (· < ·)) (h : k ∈ l) :
    (btreeInsert k l).length = l.length := by
  induction l with
  | nil => simp at h
  | cons x rest ih =>
    rw [List.sorted_cons] at hs
    rcases List.mem_cons.1 h with he | hmem
    · subst he
      simp [btreeInsert, lt_irrefl]
    · by_cases h1 : k < x
      · exact absurd h1 (not_lt.2 (le_of_lt (hs.1 k hmem)))
      · by_cases h2 : k = x
        · subst h2
          simp [btreeInsert, h1]
        · simp [btreeInsert, h1, h2, ih hs.2 hmem]

lemma sorted_le_getLast :
    ∀ (l : List Key), l.Sorted (· < ·) → ∀ x : Key, l.getLast? = some x →
      ∀ k ∈ l, k ≤ x := by
  intro l
  induction l with
  | nil => intro _ x hx; simp at hx
  | cons a rest ih =>
    intro hs x hx k hk
    rw [List.sorted_cons] at hs
    cases rest with
    | nil =>
      simp only [List.getLast?_singleton, Option.some.injEq] at hx
      simp only [List.mem_singleton] at hk
      subst hx; subst hk
      exact le_refl _
    | cons b rest2 =>
      rw [List.getLast?_cons_cons] at hx
      have hx2 : ∀ k2 ∈ b :: rest2, k2 ≤ x := fun k2 hk2 => ih hs.2 x hx k2 hk2
      rcases List.mem_cons.1 hk with he | hmem
      · subst he
        exact le_of_lt (lt_of_lt_of_le (hs.1 b (List.mem_cons_self b rest2))
          (hx2 b (List.mem_cons_self b rest2)))
      · exact hx2 k hmem

/-- For a strictly sorted `idx` with a nonzero count `c` of elements below `q`,
the slice access `sorted_keys[c - 1]` hits the greatest element below `q`. -/
lemma floor_get_aux (q : Key) :
    ∀ (idx : List Key), idx.Sorted (· < ·) →
      idx.countP (fun x => decide (x < q)) ≠ 0 →
      ∃ r, idx.get? (idx.countP (fun x => decide (x < q)) - 1) = some r ∧
        r ∈ idx ∧ r < q ∧ ∀ k ∈ idx, k < q → k ≤ r := by
  intro idx
  induction idx with
  | nil => intro _ hne; simp at hne
  | cons x rest ih =>
    intro hs hne
    rw [List.sorted_cons] at hs
    by_cases hx : x < q
    · have hcc : (x :: rest).countP (fun y => decide (y < q))
          = rest.countP (fun y => decide (y < q)) + 1 := by
        rw [List.countP_cons]
        simp [hx]
      by_cases hc : rest.countP (fun y => decide (y < q)) = 0
      · refine ⟨x, ?_, List.mem_cons_self x rest, hx, ?_⟩
        · rw [hcc, hc]
          rfl
        · intro k hk hkq
          rcases List.mem_cons.1 hk with he | hmem
          · exact le_of_eq he
          · have hnk := List.countP_eq_zero.1 hc k hmem
            simp only [decide_eq_true_eq] at hnk
            exact absurd hkq hnk
      · obtain ⟨r, hg, hmem, hlt, hmax⟩ := ih hs.2 hc
        refine ⟨r, ?_, List.mem_cons_of_mem x hmem, hlt, ?_⟩
        · have hps : rest.countP (fun y => decide (y < q)) - 1 + 1
              = rest.countP (fun y => decide (y < q)) :=
            Nat.succ_pred_eq_of_pos (Nat.pos_of_ne_zero hc)
          rw [hcc, Nat.add_sub_cancel, ← hps, List.get?_cons_succ]
          exact hg
        · intro k hk hkq
          rcases List.mem_cons.1 hk with he | hmem2
          · exact le_of_lt (he ▸ hs.1 r hmem)
          · exact hmax k hmem2 hkq
    · exfalso
      apply hne
      have h0 : rest.countP (fun y => decide (y < q)) = 0 :=
        List.countP_eq_zero.2 (fun a ha => by
          simp only [decide_eq_true_eq]
          intro haq
          exact hx ((hs.1 a ha).trans haq))
      rw [List.countP_cons]
      simp [h0, hx]

/-! ### Characterisation of the shared target-key resolution -/

lemma resolveTarget_of_mem (idx : List Key) (key : Key) (h : key ∈ idx) :
    resolveTarget idx key = some key := by
  simp [resolveTarget, h]

/-- On a strictly sorted index, `resolveTarget` returns `none` exactly when
every index key is above the query, and otherwise returns the greatest index
key that is at or below the query. -/
lemma resolveTarget_spec (idx : List Key) (hs : idx.Sorted (· < ·)) (q : Key) :
    (resolveTarget idx q = none → ∀ k ∈ idx, q < k) ∧
    (∀ r, resolveTarget idx q = some r →
      r ∈ idx ∧ r ≤ q ∧ ∀ k ∈ idx, k ≤ q → k ≤ r) ∧
    ((∀ k ∈ idx, q < k) → resolveTarget idx q = none) := by
  by_cases hq : q ∈ idx
  · rw [resolveTarget_of_mem idx q hq]
    refine ⟨fun h => by simp at h, ?_, ?_⟩
    · intro r hr
      have her : q = r := Option.some.inj hr
      subst her
      exact ⟨hq, le_refl q, fun k _ hk => hk⟩
    · intro hall
      exact absurd (hall q hq) (lt_irrefl q)
  · have hrt : resolveTarget idx q =
        (if idx.countP (fun x => decide (x < q)) = 0 then none
         else idx.get? (idx.countP (fun x => decide (x < q)) - 1)) := by
      simp [resolveTarget, binarySearch, hq]
    by_cases h0 : idx.countP (fun x => decide (x < q)) = 0
    · rw [hrt, if_pos h0]
      have hall : ∀ k ∈ idx, q < k := by
        intro k hk
        have hnk := List.countP_eq_zero.1 h0 k hk
        simp only [decide_eq_true_eq] at hnk
        exact lt_of_le_of_ne (not_lt.1 hnk) (fun e => hq (e ▸ hk))
      exact ⟨fun _ => hall, fun r hr => by simp at hr, fun _ => rfl⟩
    · obtain ⟨r, hg, hmem, hlt, hmax⟩ := floor_get_aux q idx hs h0
      rw [hrt, if_neg h0, hg]
      refine ⟨fun h => by simp at h, ?_, ?_⟩
      · intro r2 hr2
        have her : r = r2 := Option.some.inj hr2
        subst her
        refine ⟨hmem, le_of_lt hlt, ?_⟩
        intro k hk hkq
        exact hmax k hk (lt_of_le_of_ne hkq (fun e => hq (e ▸ hk)))
      · intro hall
        exact absurd (hall r hmem) (not_lt.2 (le_of_lt hlt))

/-! ### The floor-lookup specification and well-formedness preservation -/

lemma floorSpec_of_wf (m : LatestMap Key Value) (hm : WF m) (q : Key) :
    floorSpec m q := by
  obtain ⟨hsp1, hsp2, hsp3⟩ := resolveTarget_spec m.data_index hm.sorted q
  rcases hrt : resolveTarget m.data_index q with _ | r
  · have hgl : m.get_latest q = none := by simp [LatestMap.get_latest, hrt]
    refine ⟨⟨fun _ => hsp1 hrt, fun _ => hgl⟩, ?_⟩
    intro v hv
    rw [hgl] at hv
    exact absurd hv (by simp)
  · obtain ⟨hmem, hle, hmax⟩ := hsp2 r hrt
    have hk : r ∈ keys m.data := (hm.mem_iff r).1 hmem
    have hsome := (hmGet_isSome_iff r m.data).2 hk
    rcases hv0 : hmGet r m.data with _ | v0
    · rw [hv0] at hsome
      simp at hsome
    · have hgl : m.get_latest q = some v0 := by
        simp [LatestMap.get_latest, hrt, hv0]
      refine ⟨⟨fun h => ?_, fun hall => ?_⟩, ?_⟩
      · rw [hgl] at h
        exact absurd h (by simp)
      · exact absurd (hsp3 hall) (by simp [hrt])
      · intro v hv
        rw [hgl] at hv
        have hev : v0 = v := Option.some.inj hv
        subst hev
        exact ⟨r, hmem, hle, hv0, hmax⟩

lemma wf_default : WF (LatestMap.default : LatestMap Key Value) := by
  refine ⟨?_, ?_, ?_⟩ <;> simp [LatestMap.default, keys]

lemma wf_insert (m : LatestMap Key Value) (hm : WF m) (k : Key) (v : Value) :
    WF (m.insert k v) := by
  refine ⟨?_, ?_, ?_⟩
  · exact sorted_btreeInsert k m.data_index hm.sorted
  · exact nodup_keys_hmInsert k v m.data hm.nodupKeys
  · intro k'
    show k' ∈ btreeInsert k m.data_index ↔ k' ∈ keys (hmInsert k v m.data)
    rw [mem_btreeInsert, mem_keys_hmInsert]
    exact or_congr Iff.rfl (hm.mem_iff k')

lemma wf_pop (m : LatestMap Key Value) (hm : WF m) (q : Key) :
    WF (m.pop_latest q).2 := by
  rcases hrt : resolveTarget m.data_index q with _ | r
  · have he : (m.pop_latest q).2 = m := by simp [LatestMap.pop_latest, hrt]
    rw [he]
    exact hm
  · have h2 : (m.pop_latest q).2 =
        ⟨(hmRemove r m.data).2, m.data_index.erase r⟩ := by
      simp [LatestMap.pop_latest, hrt]
    rw [h2]
    refine ⟨?_, ?_, ?_⟩
    · exact List.Pairwise.sublist (List.erase_sublist r m.data_index) hm.sorted
    · exact nodup_keys_hmRemove r m.data hm.nodupKeys
    · intro k'
      show k' ∈ m.data_index.erase r ↔ k' ∈ keys (hmRemove r m.data).2
      rw [List.Nodup.mem_erase_iff hm.sorted.nodup,
        mem_keys_hmRemove r k' m.data hm.nodupKeys, hm.mem_iff k']
      tauto

lemma wf_applyOp (m : LatestMap Key Value) (hm : WF m) (op : Op Key Value) :
    WF (applyOp m op) := by
  cases op with
  | ins k v => exact wf_insert m hm k v
  | pop k => exact wf_pop m hm k
  | mutWrite k v =>
    rcases hg : m.get_mut k with _ | v0
    · simpa [applyOp, hg] using hm
    · have hg2 : hmGet k m.data = some v0 := hg
      have hk : k ∈ keys m.data := by
        rw [← hmGet_isSome_iff, hg2]
        rfl
      have happ : applyOp m (Op.mutWrite k v) = ⟨hmInsert k v m.data, m.data_index⟩ := by
        simp [applyOp, hg]
      rw [happ]
      refine ⟨hm.sorted, nodup_keys_hmInsert k v m.data hm.nodupKeys, ?_⟩
      intro k'
      show k' ∈ m.data_index ↔ k' ∈ keys (hmInsert k v m.data)
      rw [mem_keys_hmInsert, hm.mem_iff k']
      constructor
      · exact fun h => Or.inr h
      · rintro (he | h)
        · exact he ▸ hk
        · exact h

lemma wf_foldl (ops : List (Op Key Value)) :
    ∀ m : LatestMap Key Value, WF m → WF (ops.foldl applyOp m) := by
  induction ops with
  | nil => exact fun m hm => hm
  | cons op rest ih => exact fun m hm => ih (applyOp m op) (wf_applyOp m hm op)

lemma wf_runOps (ops : List (Op Key Value)) : WF (runOps ops) :=
  wf_foldl ops LatestMap.default wf_default

lemma exMap_wf : WF exMap := wf_runOps _

/-! ### Claim theorems -/

/-- Claim C1: on every well-formed state (in particular every state reached by
a finite sequence of inserts), `get_latest q` is `none` exactly when `q` is
below every stored key, any returned value belongs to the greatest stored key
at or below `q`, and when `q` itself is stored the exact match wins:
`get_latest q` is `q`'s own stored value. -/
theorem get_latest_is_floor (m : LatestMap Key Value) (hm : WF m) (q : Key) :
    (m.get_latest q = none ↔ ∀ k ∈ m.data_index, q < k) ∧
    (∀ v : Value, m.get_latest q = some v →
      ∃ r, r ∈ m.data_index ∧ r ≤ q ∧ hmGet r m.data = some v ∧
        ∀ k ∈ m.data_index, k ≤ q → k ≤ r) ∧
    (q ∈ m.data_index → m.get_latest q = hmGet q m.data) := by
  obtain ⟨h1, h2⟩ := floorSpec_of_wf m hm q
  refine ⟨h1, h2, ?_⟩
  intro hq
  simp [LatestMap.get_latest, resolveTarget_of_mem m.data_index q hq]

theorem get_latest_is_floor_witness :
    WF exMap ∧
    ((exMap.get_latest 24 = none ↔ ∀ k ∈ exMap.data_index, 24 < k) ∧
     (∀ v : Nat, exMap.get_latest 24 = some v →
       ∃ r, r ∈ exMap.data_index ∧ r ≤ 24 ∧ hmGet r exMap.data = some v ∧
         ∀ k ∈ exMap.data_index, k ≤ 24 → k ≤ r) ∧
     (24 ∈ exMap.data_index → exMap.get_latest 24 = hmGet 24 exMap.data)) :=
  ⟨exMap_wf, get_latest_is_floor exMap exMap_wf 24⟩

/-- Claim C3: invariant I1 holds in every state reachable from the empty
container by the public mutating operations (insert, pop_latest, writes
through get_mut; the read-only operations do not change the state): a key is
in the order index iff the value store holds a value for it. -/
theorem invariant_I1_reachable (ops : List (Op Key Value)) (k : Key) :
    k ∈ (runOps ops).data_index ↔ (hmGet k (runOps ops).data).isSome := by
  rw [hmGet_isSome_iff]
  exact (wf_runOps ops).mem_iff k

/-- Claim C7: on the empty container produced by `default`, `get_latest`
returns nothing for every query, `get_last_with_key` returns nothing, and
`pop_latest` returns nothing and leaves the container empty. -/
theorem empty_container_behaviour (q : Key) :
    (LatestMap.default : LatestMap Key Value).get_latest q = none ∧
    (LatestMap.default : LatestMap Key Value).get_last_with_key = none ∧
    (LatestMap.default : LatestMap Key Value).pop_latest q =
      (none, (LatestMap.default : LatestMap Key Value)) := by
  refine ⟨?_, ?_, ?_⟩ <;>
    simp [LatestMap.get_latest, LatestMap.get_last_with_key, LatestMap.pop_latest,
      LatestMap.default, resolveTarget, binarySearch]

/-- Claim C8: the slice access `sorted_keys[gt_index - 1]` in the floor
resolution of `get_latest` and `pop_latest` is always in bounds: whenever
`binary_search` returns `Err(gt_index)` with `gt_index != 0` (the `== 0` case
returns `None` first), `gt_index - 1` is a valid index of the key slice.
Every modelled operation is a total function, so no other failure exists. -/
theorem floor_slice_index_in_bounds (idx : List Key) (q : Key) (i : Nat)
    (h : binarySearch idx q = Sum.inr i) (hi : i ≠ 0) :
    i - 1 < idx.length ∧ (idx.get? (i - 1)).isSome := by
  have hile : i ≤ idx.length := by
    by_cases hq : q ∈ idx
    · rw [binarySearch, if_pos hq] at h
      exact absurd h (by simp)
    · rw [binarySearch, if_neg hq] at h
      have he : idx.countP (fun x => decide (x < q)) = i := Sum.inr.inj h
      rw [← he]
      exact List.countP_le_length _
  have hlt : i - 1 < idx.length := by omega
  refine ⟨hlt, ?_⟩
  rw [List.get?_eq_get hlt]
  rfl

theorem floor_slice_index_in_bounds_witness :
    binarySearch [1, 2, 3] (10 : Nat) = Sum.inr 3 ∧ (3 : Nat) ≠ 0 ∧
      (3 - 1 < ([1, 2, 3] : List Nat).length ∧
        (([1, 2, 3] : List Nat).get? (3 - 1)).isSome) :=
  ⟨by decide, by decide,
    floor_slice_index_in_bounds [1, 2, 3] 10 3 (by decide) (by decide)⟩

/-- Claim C2: on every well-formed state, `pop_latest q` returns nothing (and
changes nothing) exactly when no stored key is at or below `q`; otherwise it
returns the pair `(r, v)` that `get_latest q` resolves to (`r` the greatest
stored key at or below `q`, not necessarily the overall greatest), shrinks
both substructures by exactly one entry (removing only `r`), and the new
state's `get_latest q` again satisfies the floor specification. -/
theorem pop_latest_removes_floor (m : LatestMap Key Value) (hm : WF m) (q : Key) :
    ((m.pop_latest q).1 = none ↔ ∀ k ∈ m.data_index, q < k) ∧
    ((m.pop_latest q).1 = none → (m.pop_latest q).2 = m) ∧
    (∀ r v, (m.pop_latest q).1 = some (r, v) →
      m.get_latest q = some v ∧ r ∈ m.data_index ∧ r ≤ q ∧
      (∀ k ∈ m.data_index, k ≤ q → k ≤ r) ∧
      (m.pop_latest q).2.data_index.length + 1 = m.data_index.length ∧
      (m.pop_latest q).2.data.length + 1 = m.data.length ∧
      (∀ k : Key, k ∈ (m.pop_latest q).2.data_index ↔ k ∈ m.data_index ∧ k ≠ r) ∧
      floorSpec (m.pop_latest q).2 q) := by
  obtain ⟨hsp1, hsp2, hsp3⟩ := resolveTarget_spec m.data_index hm.sorted q
  rcases hrt : resolveTarget m.data_index q with _ | r0
  · have hp : m.pop_latest q = (none, m) := by simp [LatestMap.pop_latest, hrt]
    rw [hp]
    refine ⟨⟨fun _ => hsp1 hrt, fun _ => rfl⟩, fun _ => rfl, ?_⟩
    intro r v hrv
    exact absurd hrv (by simp)
  · obtain ⟨hmem, hle, hmax⟩ := hsp2 r0 hrt
    have hk : r0 ∈ keys m.data := (hm.mem_iff r0).1 hmem
    rcases hv0 : hmGet r0 m.data with _ | v0
    · exact absurd ((hmGet_eq_none_iff r0 m.data).1 hv0) (by simp [hk])
    · have hrm1 : (hmRemove r0 m.data).1 = some v0 := by
        rw [hmRemove_fst, hv0]
      have hp1 : (m.pop_latest q).1 = some (r0, v0) := by
        simp [LatestMap.pop_latest, hrt, hrm1]
      have hp2 : (m.pop_latest q).2 =
          ⟨(hmRemove r0 m.data).2, m.data_index.erase r0⟩ := by
        simp [LatestMap.pop_latest, hrt]
      refine ⟨⟨fun h => ?_, fun hall => ?_⟩, fun h => ?_, ?_⟩
      · rw [hp1] at h
        exact absurd h (by simp)
      · exact absurd (hsp3 hall) (by simp [hrt])
      · rw [hp1] at h
        exact absurd h (by simp)
      · intro r v hrv
        rw [hp1] at hrv
        have hpair : (r0, v0) = (r, v) := Option.some.inj hrv
        have her : r0 = r := congrArg Prod.fst hpair
        have hev : v0 = v := congrArg Prod.snd hpair
        subst her
        subst hev
        refine ⟨?_, hmem, hle, hmax, ?_, ?_, ?_, ?_⟩
        · simp [LatestMap.get_latest, hrt, hv0]
        · rw [hp2]
          show (m.data_index.erase r0).length + 1 = m.data_index.length
          rw [List.length_erase_of_mem hmem]
          have := List.length_pos_of_mem hmem
          omega
        · rw [hp2]
          exact length_hmRemove_mem r0 m.data hk
        · intro k
          rw [hp2]
          show k ∈ m.data_index.erase r0 ↔ _
          rw [List.Nodup.mem_erase_iff hm.sorted.nodup]
          tauto
        · exact floorSpec_of_wf _ (wf_pop m hm q) q

theorem pop_latest_removes_floor_witness :
    WF exMap ∧
    (((exMap.pop_latest 3).1 = none ↔ ∀ k ∈ exMap.data_index, 3 < k) ∧
     ((exMap.pop_latest 3).1 = none → (exMap.pop_latest 3).2 = exMap) ∧
     (∀ r v, (exMap.pop_latest 3).1 = some (r, v) →
       exMap.get_latest 3 = some v ∧ r ∈ exMap.data_index ∧ r ≤ 3 ∧
       (∀ k ∈ exMap.data_index, k ≤ 3 → k ≤ r) ∧
       (exMap.pop_latest 3).2.data_index.length + 1 = exMap.data_index.length ∧
       (exMap.pop_latest 3).2.data.length + 1 = exMap.data.length ∧
       (∀ k : Nat, k ∈ (exMap.pop_latest 3).2.data_index ↔
         k ∈ exMap.data_index ∧ k ≠ r) ∧
       floorSpec (exMap.pop_latest 3).2 3)) :=
  ⟨exMap_wf, pop_latest_removes_floor exMap exMap_wf 3⟩

/-- Claim C4: `contains_key` and `get_mut` use exact-key matching only: on
every well-formed state, `contains_key k` is true iff `k` itself is stored,
`get_mut k` returns a handle iff `k` itself is stored, and for an absent key
both report nothing even when a smaller stored key would be its floor. -/
theorem exact_key_ops_no_floor (m : LatestMap Key Value) (hm : WF m) (k : Key) :
    (m.contains_key k = true ↔ k ∈ keys m.data) ∧
    ((m.get_mut k).isSome ↔ k ∈ keys m.data) ∧
    (k ∉ keys m.data → m.contains_key k = false ∧ m.get_mut k = none) := by
  have h1 : m.contains_key k = true ↔ k ∈ keys m.data := by
    simp only [LatestMap.contains_key, decide_eq_true_eq]
    exact hm.mem_iff k
  refine ⟨h1, hmGet_isSome_iff k m.data, fun hnot => ⟨?_, ?_⟩⟩
  · have hno : ¬ m.contains_key k = true := fun h => hnot (h1.1 h)
    simpa using hno
  · exact (hmGet_eq_none_iff k m.data).2 hnot

theorem exact_key_ops_no_floor_witness :
    WF exMap ∧
    ((exMap.contains_key 5 = true ↔ 5 ∈ keys exMap.data) ∧
     ((exMap.get_mut 5).isSome ↔ 5 ∈ keys exMap.data) ∧
     (5 ∉ keys exMap.data →
       exMap.contains_key 5 = false ∧ exMap.get_mut 5 = none)) :=
  ⟨exMap_wf, exact_key_ops_no_floor exMap exMap_wf 5⟩

/-- Claim C5: inserting an already-present key overwrites: after
`insert k v1` then `insert k v2`, the index cardinality is unchanged by the
second insert and `get_latest k` returns `v2`, the most recent value. -/
theorem insert_overwrites (m : LatestMap Key Value) (hm : WF m) (k : Key)
    (v1 v2 : Value) :
    ((m.insert k v1).insert k v2).data_index.length
        = (m.insert k v1).data_index.length ∧
    ((m.insert k v1).insert k v2).get_latest k = some v2 := by
  have hmem1 : k ∈ (m.insert k v1).data_index :=
    (mem_btreeInsert k k m.data_index).2 (Or.inl rfl)
  constructor
  · show (btreeInsert k (m.insert k v1).data_index).length = _
    exact length_btreeInsert_of_mem k _ (wf_insert m hm k v1).sorted hmem1
  · have hmem2 : k ∈ ((m.insert k v1).insert k v2).data_index :=
      (mem_btreeInsert k k _).2 (Or.inl rfl)
    have hres := resolveTarget_of_mem _ k hmem2
    simpa [LatestMap.get_latest, hres] using
      hmGet_hmInsert_self k v2 (hmInsert k v1 m.data)

theorem insert_overwrites_witness :
    WF exMap ∧
    (((exMap.insert 10 7).insert 10 8).data_index.length
        = (exMap.insert 10 7).data_index.length ∧
     ((exMap.insert 10 7).insert 10 8).get_latest 10 = some 8) :=
  ⟨exMap_wf, insert_overwrites exMap exMap_wf 10 7 8⟩

/-- Claim C6: `get_last_with_key` returns nothing exactly when the container
is empty, and on a non-empty container returns the stored pair with the
greatest key. -/
theorem get_last_with_key_is_max (m : LatestMap Key Value) (hm : WF m) :
    (m.get_last_with_key = none ↔ m.data = []) ∧
    (∀ k v, m.get_last_with_key = some (k, v) →
      k ∈ m.data_index ∧ hmGet k m.data = some v ∧
        ∀ k' ∈ m.data_index, k' ≤ k) := by
  rcases hl : m.data_index.getLast? with _ | k0
  · have hidx : m.data_index = [] := List.getLast?_eq_none_iff.1 hl
    have hdata : m.data = [] := by
      have hkeys : keys m.data = [] := by
        rw [List.eq_nil_iff_forall_not_mem]
        intro a ha
        have hmem := (hm.mem_iff a).2 ha
        rw [hidx] at hmem
        simp at hmem
      rwa [keys, List.map_eq_nil_iff] at hkeys
    have hnone : m.get_last_with_key = none := by
      simp [LatestMap.get_last_with_key, hl]
    refine ⟨⟨fun _ => hdata, fun _ => hnone⟩, ?_⟩
    intro k v hkv
    rw [hnone] at hkv
    exact absurd hkv (by simp)
  · have hmem : k0 ∈ m.data_index := List.mem_of_mem_getLast? hl
    have hk : k0 ∈ keys m.data := (hm.mem_iff k0).1 hmem
    rcases hv0 : hmGet k0 m.data with _ | v0
    · exact absurd ((hmGet_eq_none_iff k0 m.data).1 hv0) (by simp [hk])
    · have hsome : m.get_last_with_key = some (k0, v0) := by
        simp [LatestMap.get_last_with_key, hl, hv0]
      have hne : m.data ≠ [] := by
        intro he
        rw [he] at hk
        simp [keys] at hk
      refine ⟨⟨fun h => ?_, fun h => absurd h hne⟩, ?_⟩
      · rw [hsome] at h
        exact absurd h (by simp)
      · intro k v hkv
        rw [hsome] at hkv
        have hpair : (k0, v0) = (k, v) := Option.some.inj hkv
        have her : k0 = k := congrArg Prod.fst hpair
        have hev : v0 = v := congrArg Prod.snd hpair
        subst her
        subst hev
        exact ⟨hmem, hv0, sorted_le_getLast m.data_index hm.sorted k0 hl⟩

theorem get_last_with_key_is_max_witness :
    WF exMap ∧
    ((exMap.get_last_with_key = none ↔ exMap.data = []) ∧
     (∀ k v, exMap.get_last_with_key = some (k, v) →
       k ∈ exMap.data_index ∧ hmGet k exMap.data = some v ∧
         ∀ k' ∈ exMap.data_index, k' ≤ k)) :=
  ⟨exMap_wf, get_last_with_key_is_max exMap exMap_wf⟩

/-- Claim C9: frame property of the mutating operations: `insert k v` leaves
the stored value and index membership of every other key unchanged, and when
`pop_latest q` removes the resolved key `r`, every key other than `r` keeps
its stored value and index membership. -/
theorem mutation_frame (m : LatestMap Key Value) (k k' q r : Key)
    (v w : Value) (hne : k' ≠ k) :
    (hmGet k' (m.insert k v).data = hmGet k' m.data ∧
      (k' ∈ (m.insert k v).data_index ↔ k' ∈ m.data_index)) ∧
    ((m.pop_latest q).1 = some (r, w) → k' ≠ r →
      hmGet k' (m.pop_latest q).2.data = hmGet k' m.data ∧
        (k' ∈ (m.pop_latest q).2.data_index ↔ k' ∈ m.data_index)) := by
  constructor
  · refine ⟨hmGet_hmInsert_ne k k' v m.data hne, ?_⟩
    show k' ∈ btreeInsert k m.data_index ↔ _
    rw [mem_btreeInsert]
    constructor
    · rintro (he | h)
      · exact absurd he hne
      · exact h
    · exact fun h => Or.inr h
  · intro hpop hkr
    rcases hrt : resolveTarget m.data_index q with _ | r0
    · have hp : (m.pop_latest q).1 = none := by simp [LatestMap.pop_latest, hrt]
      rw [hp] at hpop
      exact absurd hpop (by simp)
    · have h1 : (m.pop_latest q).1 =
          ((hmRemove r0 m.data).1).map (fun value => (r0, value)) := by
        simp [LatestMap.pop_latest, hrt]
      have h2 : (m.pop_latest q).2 =
          ⟨(hmRemove r0 m.data).2, m.data_index.erase r0⟩ := by
        simp [LatestMap.pop_latest, hrt]
      rw [h1] at hpop
      rcases hv : (hmRemove r0 m.data).1 with _ | v0
      · rw [hv] at hpop
        exact absurd hpop (by simp)
      · rw [hv] at hpop
        simp only [Option.map_some', Option.some.injEq, Prod.mk.injEq] at hpop
        obtain ⟨her, hew⟩ := hpop
        subst her
        rw [h2]
        refine ⟨hmGet_hmRemove_ne r0 k' m.data hkr, ?_⟩
        show k' ∈ m.data_index.erase r0 ↔ _
        exact List.mem_erase_of_ne hkr

theorem mutation_frame_witness :
    (3 : Nat) ≠ 1 ∧
    ((hmGet 3 (exMap.insert 1 99).data = hmGet 3 exMap.data ∧
      (3 ∈ (exMap.insert 1 99).data_index ↔ 3 ∈ exMap.data_index)) ∧
     ((exMap.pop_latest 2).1 = some (1, 10) → (3 : Nat) ≠ 1 →
       hmGet 3 (exMap.pop_latest 2).2.data = hmGet 3 exMap.data ∧
         (3 ∈ (exMap.pop_latest 2).2.data_index ↔ 3 ∈ exMap.data_index))) :=
  ⟨by decide, mutation_frame exMap 1 3 2 1 99 10 (by decide)⟩

/-- Claim C10: on every well-formed state, `get_mut k` returns a handle iff
`contains_key k` is true, although the former consults the value store and
the latter the order index. -/
theorem get_mut_agrees_contains_key (m : LatestMap Key Value) (hm : WF m)
    (k : Key) : ((m.get_mut k).isSome ↔ m.contains_key k = true) := by
  have h2 : m.contains_key k = true ↔ k ∈ m.data_index := by
    simp [LatestMap.contains_key]
  rw [h2]
  show (hmGet k m.data).isSome = true ↔ _
  rw [hmGet_isSome_iff]
  exact ((hm.mem_iff k).symm : _)

theorem get_mut_agrees_contains_key_witness :
    WF exMap ∧ ((exMap.get_mut 20).isSome ↔ exMap.contains_key 20 = true) :=
  ⟨exMap_wf, get_mut_agrees_contains_key exMap exMap_wf 20⟩
